import Mathlib

/-!
Verification of the semantic chunking engine of the Prism repository
(`scripts/rag/chunk_documents.py`).

The Python source is shallowly embedded below.  Strings are modelled as
Lean `String` / `List Char`; Python regular expressions, which are all
line-anchored or literal in the source, are realised as explicit
character-list parsers.  Python character classes `\s`, `\d`, `\w` are
modelled over their ASCII meaning (the repository's documents are ASCII
markdown).  External collaborators that the source calls but that are not
part of the repository — the `tiktoken` token counter, langchain's
`MarkdownHeaderTextSplitter` and `RecursiveCharacterTextSplitter` — are
passed to the embedded pipeline as explicit function parameters, exactly
at the call sites where the source invokes them.
-/

namespace Prism

/-- ASCII model of Python's `\s` character class (also used for `str.strip`). -/
def isWs (c : Char) : Bool :=
  c = ' ' || c = '\t' || c = '\n' || c = '\r' || c = '\x0b' || c = '\x0c'

/-- ASCII model of Python's `\d`. -/
def isDigitC (c : Char) : Bool :=
  '0' ≤ c && c ≤ '9'

/-- ASCII model of Python's `\w` (letters, digits, underscore). -/
def isWordC (c : Char) : Bool :=
  ('a' ≤ c && c ≤ 'z') || ('A' ≤ c && c ≤ 'Z') || isDigitC c || c = '_'

/-- Strip leading whitespace. -/
def stripLead (l : List Char) : List Char :=
  l.dropWhile isWs

/-- Strip trailing whitespace. -/
def stripTrail (l : List Char) : List Char :=
  (l.reverse.dropWhile isWs).reverse

/-- Python `str.strip()`: whitespace removed from both ends. -/
def stripL (l : List Char) : List Char :=
  stripTrail (stripLead l)

/-- Python `content.split('\n')` (used to realise the `re.MULTILINE` line
anchors of the section-marker patterns). -/
def splitOnNl : List Char → List (List Char)
  | [] => [[]]
  | c :: cs =>
    match splitOnNl cs with
    | [] => [[c]]
    | l :: ls => if c = '\n' then [] :: l :: ls else (c :: l) :: ls

/-- Join a list of lines with `'\n'` (left inverse of `splitOnNl`). -/
def joinNl : List (List Char) → List Char
  | [] => []
  | [l] => l
  | l :: ls => l ++ '\n' :: joinNl ls

/-- Decidable list-prefix test. -/
def isPrefixL : List Char → List Char → Bool
  | [], _ => true
  | _ :: _, [] => false
  | p :: ps, c :: cs => p = c && isPrefixL ps cs

/-- Python `pat in s` substring test. -/
def containsStr (pat : List Char) : List Char → Bool
  | [] => isPrefixL pat []
  | c :: cs => isPrefixL pat (c :: cs) || containsStr pat cs

/-- Decidable list-suffix test (Python `str.endswith`). -/
def isSuffixL (pat l : List Char) : Bool :=
  isPrefixL pat.reverse l.reverse

/-- Fuel-driven body of `replaceS`; the fuel (initially the input length)
only makes the recursion structural and is never exhausted. -/
def replaceSAux (pat repl : List Char) : Nat → List Char → List Char
  | _, [] => []
  | 0, l => l
  | fuel + 1, c :: cs =>
    if pat ≠ [] ∧ isPrefixL pat (c :: cs) then
      repl ++ replaceSAux pat repl fuel ((c :: cs).drop pat.length)
    else
      c :: replaceSAux pat repl fuel cs

/-- Python `str.replace(pat, repl)` — all non-overlapping occurrences,
left to right. -/
def replaceS (pat repl l : List Char) : List Char :=
  replaceSAux pat repl l.length l

/-- Fuel-driven body of `splitOnStr`. -/
def splitOnStrAux (pat : List Char) : Nat → List Char → List (List Char)
  | _, [] => [[]]
  | 0, l => [l]
  | fuel + 1, c :: cs =>
    if isPrefixL pat (c :: cs) then
      [] :: splitOnStrAux pat fuel ((c :: cs).drop pat.length)
    else
      match splitOnStrAux pat fuel cs with
      | [] => [[c]]
      | l :: ls => (c :: l) :: ls

/-- Python `str.split(pat)` for a non-empty literal separator. -/
def splitOnStr (pat l : List Char) : List (List Char) :=
  splitOnStrAux pat l.length l

/-- Join with a literal separator (Python `sep.join`). -/
def joinSepL (sep : List Char) : List (List Char) → List Char
  | [] => []
  | [l] => l
  | l :: ls => l ++ sep ++ joinSepL sep ls

/-- Consume `pat` (given in lowercase) case-insensitively from the front of
`l`; returns the remainder on success.  Models a literal inside a pattern
compiled with `re.IGNORECASE`. -/
def stripCI : List Char → List Char → Option (List Char)
  | [], l => some l
  | _ :: _, [] => none
  | p :: ps, c :: cs => if c.toLower = p then stripCI ps cs else none

/-- Value of a decimal digit string (Python `int` on the captured group). -/
def natOfDigits (l : List Char) : Nat :=
  l.foldl (fun a c => 10 * a + (c.toNat - 48)) 0

/-!
Section-marker patterns of `split_by_document_sections` (lines 140-155 of
`chunk_documents.py`).  Every pattern is of the form `^## ...$` compiled
with `re.MULTILINE | re.IGNORECASE`, so a marker is a whole line of the
document that the pattern matches; each matcher below takes one line and
returns the extracted `section_id` on success.  The trailing `\s*$` of the
patterns can also swallow following whitespace-only text, but since every
section body is `.strip()`-ped by the source before use, realising the
match line-by-line yields the same sections.
-/

/-- Common `^##\s+` head of all four marker patterns: two hashes followed by
at least one whitespace character.  Returns `(whitespace_run, remainder)`. -/
def hashMark : List Char → Option (List Char × List Char)
  | '#' :: '#' :: rest =>
    let ws := rest.takeWhile isWs
    let r := rest.dropWhile isWs
    if ws.isEmpty then none else some (ws, r)
  | _ => none

/-- Model of the lazy group `(.+?)\s*$` evaluated after a greedy `\s+` that
may give back one character: if the remainder `r` is non-empty the group is
`r` without its trailing whitespace; if `r` is empty the match succeeds only
when the whitespace run has length ≥ 2, the group then being its last
character. -/
def lazyTailGroup (ws r : List Char) : Option (List Char) :=
  if r.isEmpty then
    if 2 ≤ ws.length then some [ws.getLastD ' '] else none
  else some (stripTrail r)

/-- Generic marker `^##\s+(.+?)\s*$` (line 154); `extract_id` is the group
itself. -/
def genericLabel (l : List Char) : Option (List Char) :=
  match hashMark l with
  | none => none
  | some (ws, r) => lazyTailGroup ws r

/-- Legacy PDF marker `^##\s+Page\s+(\d+)\s*$` (line 142); `extract_id`
renders `"Page {digits}"` with the digits exactly as captured. -/
def pageLabel (l : List Char) : Option (List Char) :=
  match hashMark l with
  | none => none
  | some (_, r) =>
    match stripCI "page".data r with
    | none => none
    | some r1 =>
      let ws2 := r1.takeWhile isWs
      let r2 := r1.dropWhile isWs
      if ws2.isEmpty then none
      else
        let ds := r2.takeWhile isDigitC
        let r3 := r2.dropWhile isDigitC
        if ds.isEmpty then none
        else if (r3.dropWhile isWs).isEmpty then some ("Page ".data ++ ds) else none

/-- Excel marker `^##\s+Sheet:\s+(.+?)\s*$` (line 146); `extract_id` renders
`"Sheet: {group}"` (prefix case-normalised by the format string). -/
def sheetLabel (l : List Char) : Option (List Char) :=
  match hashMark l with
  | none => none
  | some (_, r) =>
    match stripCI "sheet:".data r with
    | none => none
    | some r1 =>
      let ws2 := r1.takeWhile isWs
      let r2 := r1.dropWhile isWs
      if ws2.isEmpty then none
      else
        match lazyTailGroup ws2 r2 with
        | none => none
        | some g => some ("Sheet: ".data ++ g)

/-- Email marker `^##\s+(Email\s+\w+)\s*$` (line 150); the group keeps the
original spelling of the case-insensitively matched `Email`, the whitespace
run, and the single `\w+` word. -/
def emailLabel (l : List Char) : Option (List Char) :=
  match hashMark l with
  | none => none
  | some (_, r) =>
    match r with
    | e1 :: e2 :: e3 :: e4 :: e5 :: r2 =>
      if [e1.toLower, e2.toLower, e3.toLower, e4.toLower, e5.toLower] = "email".data then
        let ws2 := r2.takeWhile isWs
        let r3 := r2.dropWhile isWs
        if ws2.isEmpty then none
        else
          let w := r3.takeWhile isWordC
          let r4 := r3.dropWhile isWordC
          if w.isEmpty then none
          else if (r4.dropWhile isWs).isEmpty then
            some ([e1, e2, e3, e4, e5] ++ ws2 ++ w)
          else none
      else none
    | _ => none

/-- Walk the document's lines and group them at marker lines: returns the
lines before the first marker, and for every marker line the triple
`(marker_line, extracted_id, following_block)`.  This realises the
`re.finditer` loop of lines 157-176: the block of a marker runs up to the
next marker (or the end of the content). -/
def splitAtMarkers (f : List Char → Option (List Char)) :
    List (List Char) → List (List Char) × List (List Char × List Char × List (List Char))
  | [] => ([], [])
  | l :: ls =>
    match f l with
    | some lab => ([], (l, lab, (splitAtMarkers f ls).1) :: (splitAtMarkers f ls).2)
    | none => (l :: (splitAtMarkers f ls).1, (splitAtMarkers f ls).2)

/-- True when the line consists of whitespace only (or is empty). -/
def wsOnlyL (l : List Char) : Bool :=
  (l.dropWhile isWs).isEmpty

/-- True when the line is `##`, then whitespace, then the given keyword
(case-insensitively), then only whitespace to the end of the line. -/
def keywordEdge (kw : List Char) (L : List Char) : Bool :=
  match hashMark L with
  | some (_, r) =>
    match stripCI kw r with
    | some rest => wsOnlyL rest
    | none => false
  | none => false

/-- Section-body post-processing of lines 176-180: `.strip()`, then
`re.sub(r'^---\s*', '', ·)` (one anchored removal), then
`re.sub(r'\s*---\s*$', '', ·)` (one anchored removal of a trailing
horizontal rule together with the whitespace around it). -/
def stripSection (l : List Char) : List Char :=
  let s := stripL l
  let s := if isPrefixL "---".data s then (s.drop 3).dropWhile isWs else s
  let t := stripTrail s
  if isSuffixL "---".data t then stripTrail (t.take (t.length - 3)) else s

/-!
Document-Intelligence page-break path, `_split_by_di_page_breaks`
(lines 65-107 of `chunk_documents.py`).
-/

/-- The literal page-break marker. -/
def pageBreakMarker : List Char := "<!-- PageBreak -->".data

/-- Try to match `(?:<!-- PageNumber=")(\d+)(?:" -->)` at the head of `l`,
returning the captured page number. -/
def parsePageNum (l : List Char) : Option Nat :=
  if isPrefixL "<!-- PageNumber=\"".data l then
    let r := l.drop 17
    let ds := r.takeWhile isDigitC
    let r2 := r.dropWhile isDigitC
    if ds.isEmpty then none
    else if isPrefixL "\" -->".data r2 then some (natOfDigits ds) else none
  else none

/-- Fuel-driven body of `searchPageNum`. -/
def searchPageNumAux : Nat → List Char → Option Nat
  | _, [] => none
  | 0, _ => none
  | fuel + 1, c :: cs =>
    match parsePageNum (c :: cs) with
    | some n => some n
    | none => searchPageNumAux fuel cs

/-- Model of `re.search(r'<!-- PageNumber="(\d+)" -->', ·)` — the leftmost match
(line 92). -/
def searchPageNum (l : List Char) : Option Nat :=
  searchPageNumAux l.length l

/-- Try to match `<!-- Page(?:Header|Footer|Number)="[^"]*" -->\s*` at the
head of `l`; on success return the remainder after the matched span. -/
def parsePageComment (l : List Char) : Option (List Char) :=
  if isPrefixL "<!-- Page".data l then
    let r := l.drop 9
    let r1 :=
      if isPrefixL "Header".data r then some (r.drop 6)
      else if isPrefixL "Footer".data r then some (r.drop 6)
      else if isPrefixL "Number".data r then some (r.drop 6)
      else none
    match r1 with
    | none => none
    | some r2 =>
      if isPrefixL "=\"".data r2 then
        let r3 := (r2.drop 2).dropWhile (fun c => c != '"')
        if isPrefixL "\" -->".data r3 then some ((r3.drop 5).dropWhile isWs) else none
      else none
  else none

/-- Fuel-driven body of `stripPageComments`. -/
def stripPageCommentsAux : Nat → List Char → List Char
  | _, [] => []
  | 0, l => l
  | fuel + 1, c :: cs =>
    match parsePageComment (c :: cs) with
    | some rest => stripPageCommentsAux fuel rest
    | none => c :: stripPageCommentsAux fuel cs

/-- Model of `re.sub(r'<!-- Page(?:Header|Footer|Number)="[^"]*" -->\s*', '', ·)` —
all non-overlapping occurrences, left to right (line 101). -/
def stripPageComments (l : List Char) : List Char :=
  stripPageCommentsAux l.length l

/-- Fuel-free body of `diSections`; `i` is the 1-based `enumerate` index,
which advances over every page-break block, including the skipped empty
ones. -/
def diSectionsAux : Nat → List (List Char) → List (List Char × List Char)
  | _, [] => []
  | i, page :: rest =>
    let p := stripL page
    if p.isEmpty then diSectionsAux (i + 1) rest
    else
      let n := (searchPageNum p).getD i
      let sid := "Page ".data ++ (Nat.repr n).data
      let clean := stripL (stripPageComments p)
      if clean.isEmpty then diSectionsAux (i + 1) rest
      else (sid, clean) :: diSectionsAux (i + 1) rest

/-- Embeds `_split_by_di_page_breaks` (lines 65-107). -/
def diSections (content : List Char) : List (List Char × List Char) :=
  diSectionsAux 1 (splitOnStr pageBreakMarker content)

/-!
Embedding of `split_by_document_sections` (lines 110-185).
-/

/-- Python `str.lower()` (ASCII model, enough for the extension tests). -/
def toLowerStr (s : String) : String :=
  String.mk (s.data.map Char.toLower)

/-- Python `str.endswith`. -/
def endsWithStr (s suf : String) : Bool :=
  isSuffixL suf.data s.data

/-- Test `source_lower.endswith('.pdf')` (line 131). -/
def isPdfName (sl : String) : Bool := endsWithStr sl ".pdf"

/-- Test `source_lower.endswith(('.xlsx', '.xls', '.csv'))` (line 132). -/
def isExcelName (sl : String) : Bool :=
  endsWithStr sl ".xlsx" || endsWithStr sl ".xls" || endsWithStr sl ".csv"

/-- Test `source_lower.endswith('.msg')` (line 133). -/
def isEmailName (sl : String) : Bool := endsWithStr sl ".msg"

/-- The marker pattern selected by the document type (lines 140-155). -/
def markerOf (source_file : String) : List Char → Option (List Char) :=
  let sl := toLowerStr source_file
  if isPdfName sl then pageLabel
  else if isExcelName sl then sheetLabel
  else if isEmailName sl then emailLabel
  else genericLabel

/-- Lines on which the line-local marker model can diverge from Python:
because the patterns are compiled with `re.MULTILINE` and `\s` also matches
`'\n'`, a `##` line whose marker middle ends in (possibly empty) whitespace
lets `\s+` cross the line break, merging the marker with following lines
(e.g. `"##\nalpha"` or `"## Email\nBody"` match as one marker in Python).
The line-local matchers above do not model that crossing; the theorems over
the segmenter therefore assume no line of the content is such an edge
line. -/
def markerEdge (source_file : String) (L : List Char) : Bool :=
  match L with
  | '#' :: '#' :: t =>
    let sl := toLowerStr source_file
    wsOnlyL t ||
      (if isPdfName sl then keywordEdge "page".data L
       else if isExcelName sl then keywordEdge "sheet:".data L
       else if isEmailName sl then keywordEdge "email".data L
       else false)
  | _ => false

/-- Embeds `split_by_document_sections(content, source_file)` (lines 110-185):
Document-Intelligence page-break path for PDFs containing the page-break
marker, otherwise the selected line-anchored marker pattern; with no marker
found the whole content is one section with a default location. -/
def splitByDocumentSections (content source_file : String) : List (String × String) :=
  let sl := toLowerStr source_file
  if isPdfName sl && containsStr pageBreakMarker content.data then
    (diSections content.data).map (fun p => (String.mk p.1, String.mk p.2))
  else
    let lines := splitOnNl content.data
    let gs := (splitAtMarkers (markerOf source_file) lines).2
    if gs.isEmpty then
      [(if isPdfName sl then "Page 1" else "Section 1", content)]
    else
      gs.filterMap (fun g =>
        let t := stripSection (joinNl g.2.2)
        if t.isEmpty then none else some (String.mk g.2.1, String.mk t))

/-!
Embedding of `chunk_section_content` (lines 238-358).  The langchain
`MarkdownHeaderTextSplitter` is passed in as `mdSplit` (returning
`Except Unit` to model the `try/except` of lines 277-281), the langchain
`RecursiveCharacterTextSplitter.split_text` as `tsplit`, and the token
counter (`count_tokens` / the `token_counter` lambda, both backed by the
same `cl100k_base` encoding) as `tc`.
-/

/-- A langchain `Document`: `page_content` plus a string-keyed metadata
mapping.  Python dicts are insertion-ordered association lists without
duplicate keys. -/
structure MDoc where
  page_content : String
  metadata : List (String × String)
deriving DecidableEq, Repr

/-- Fuel-free body of `collapseNl`; `k` counts the pending run of newline
characters. -/
def collapseNlAux : Nat → List Char → List Char
  | k, [] => List.replicate (if 3 ≤ k then 2 else k) '\n'
  | k, c :: rest =>
    if c = '\n' then collapseNlAux (k + 1) rest
    else List.replicate (if 3 ≤ k then 2 else k) '\n' ++ c :: collapseNlAux 0 rest

/-- Model of `re.sub(r'\n{3,}', '\n\n', ·)` (line 259): every maximal run of three or
more newlines becomes exactly two. -/
def cleanSection (s : String) : String :=
  String.mk (collapseNlAux 0 s.data)

/-- Lines 277-281: try the markdown header splitter, and on any failure fall
back to the whole section as a single `Document` with empty metadata. -/
def headerSplitsOf (mdSplit : String → Except Unit (List MDoc)) (s : String) : List MDoc :=
  match mdSplit s with
  | .ok l => l
  | .error _ => [⟨s, []⟩]

/-- One step of the metadata merge of lines 297-301: Python
`merged_metadata[key] = value` semantics on an insertion-ordered dict —
a missing key is appended at the end, an existing key keeps its place; an
existing key with a different value records both values joined by `" / "`. -/
def updateMeta : List (String × String) → String → String → List (String × String)
  | [], k, v => [(k, v)]
  | (k', v') :: rest, k, v =>
    if k' = k then (k', if v' = v then v' else v' ++ " / " ++ v) :: rest
    else (k', v') :: updateMeta rest k v

/-- Lines 296-301: fold every entry of the absorbed fragment's metadata into
a copy of the running fragment's metadata. -/
def mergeMeta (m1 m2 : List (String × String)) : List (String × String) :=
  m2.foldl (fun acc kv => updateMeta acc kv.1 kv.2) m1

/-- Lines 295-302: the merged fragment — texts joined by a blank line,
metadata merged by `mergeMeta`. -/
def mergeDoc (a b : MDoc) : MDoc :=
  ⟨a.page_content ++ "\n\n" ++ b.page_content, mergeMeta a.metadata b.metadata⟩

/-- Body of the merge loop of lines 286-309, carrying the running
`current_section`. -/
def mergeSmallAux (tc : String → Nat) (minSize : Nat) (cur : MDoc) : List MDoc → List MDoc
  | [] => [cur]
  | nxt :: rest =>
    if tc cur.page_content < minSize then
      mergeSmallAux tc minSize (mergeDoc cur nxt) rest
    else
      cur :: mergeSmallAux tc minSize nxt rest

/-- The "merge small adjacent sections" stage (lines 283-309). -/
def mergeSections (tc : String → Nat) (minSize : Nat) : List MDoc → List MDoc
  | [] => []
  | d :: ds => mergeSmallAux tc minSize d ds

/-- A chunk record as produced by `chunk_section_content` (lines 335-356),
before assembly. -/
structure PreChunk where
  content : String
  token_count : Nat
  metadata : List (String × String)
  location : String
deriving DecidableEq, Repr

/-- Lines 335-357: a merged section within the token budget passes through
as one chunk; an oversized one is split by the recursive character splitter
and every sub-chunk is re-measured. -/
def emitChunks (tc : String → Nat) (tsplit : String → List String) (target : Nat)
    (location : String) (sections : List MDoc) : List PreChunk :=
  sections.flatMap (fun sec =>
    let n := tc sec.page_content
    if n ≤ target then [⟨sec.page_content, n, sec.metadata, location⟩]
    else (tsplit sec.page_content).map (fun sub => ⟨sub, tc sub, sec.metadata, location⟩))

/-- Embeds `chunk_section_content` (lines 238-358).  `chunk_overlap` is absorbed
into the `tsplit` parameter together with the target size, exactly as the
source bakes both into the constructed `RecursiveCharacterTextSplitter`. -/
def chunkSectionContent (tc : String → Nat) (mdSplit : String → Except Unit (List MDoc))
    (tsplit : String → List String) (section_content location : String)
    (target minSize : Nat) : List PreChunk :=
  let s := cleanSection section_content
  if (stripL s.data).isEmpty then []
  else emitChunks tc tsplit target location (mergeSections tc minSize (headerSplitsOf mdSplit s))

/-!
Embedding of `clean_section_title` (lines 188-198) and `build_context_prefix`
(lines 201-235).
-/

/-- Fuel-free accumulator body of `wordsOf` (`acc` is the current word,
reversed). -/
def wordsAux (acc : List Char) : List Char → List (List Char)
  | [] => if acc.isEmpty then [] else [acc.reverse]
  | c :: cs =>
    if isWs c then
      if acc.isEmpty then wordsAux [] cs else acc.reverse :: wordsAux [] cs
    else wordsAux (c :: acc) cs

/-- Python `str.split()` with no argument: maximal non-whitespace runs. -/
def wordsOf (l : List Char) : List (List Char) :=
  wordsAux [] l

/-- Embeds `clean_section_title` (lines 188-198): remove `**`, then `*`, then
normalise whitespace via `' '.join(title.split())` and a final `strip`. -/
def clean_section_title (t : String) : String :=
  let t1 := replaceS "*".data [] (replaceS "**".data [] t.data)
  String.mk (stripL (joinSepL " ".data (wordsOf t1)))

/-- First value bound to `k` in the association list (Python `d[k]` /
`k in d`). -/
def lookupMeta (m : List (String × String)) (k : String) : Option String :=
  match m with
  | [] => none
  | (k', v) :: rest => if k' = k then some v else lookupMeta rest k

/-- Lines 217: the document display name — underscores to spaces, then all
occurrences of the three literals `.pdf`, `.xlsx`, `.msg` removed. -/
def docNameOf (source_file : String) : String :=
  String.mk (replaceS ".msg".data [] (replaceS ".xlsx".data []
    (replaceS ".pdf".data [] (source_file.data.map (fun c => if c = '_' then ' ' else c)))))

/-- Lines 221-226: the cleaned titles of `Header 1` … `Header 4` that are
present with a truthy (non-empty) value and whose cleaned form is
non-empty. -/
def sectionPartsOf (section_hierarchy : List (String × String)) : List String :=
  ["Header 1", "Header 2", "Header 3", "Header 4"].filterMap (fun hl =>
    match lookupMeta section_hierarchy hl with
    | none => none
    | some v =>
      if v = "" then none
      else
        let ct := clean_section_title v
        if ct = "" then none else some ct)

/-- Join a list of strings with a separator (Python `sep.join`). -/
def joinSepS (sep : String) : List String → String
  | [] => ""
  | [s] => s
  | s :: ss => s ++ sep ++ joinSepS sep ss

/-- Embeds `build_context_prefix` (lines 201-235): the `Document:` part, then the
`Section:` part when any cleaned header title survives, then the
`Location:` part when the location is non-empty, newline-joined and closed
by a blank line. -/
def buildContextHeader (source_file : String) (section_hierarchy : List (String × String))
    (location : String) : String :=
  let parts := ["Document: " ++ docNameOf source_file]
  let section_parts := sectionPartsOf section_hierarchy
  let parts := if section_parts.isEmpty then parts
    else parts ++ ["Section: " ++ joinSepS " > " section_parts]
  let parts := if location = "" then parts else parts ++ ["Location: " ++ location]
  joinSepS "\n" parts ++ "\n\n"

/-!
Embedding of `chunk_document` (lines 361-440).
-/

/-- The final persisted chunk record (lines 419-433). -/
structure Chunk where
  chunk_id : String
  content : String
  enriched_content : String
  source_file : String
  source_path : String
  location : String
  chunk_index : Nat
  total_chunks : Nat
  token_count : Nat
  enriched_token_count : Nat
  document_hash : String
  section_title : Option String
  section_hierarchy : List (String × String)
deriving DecidableEq, Repr

/-- Python `f"{n:03d}"` for a natural number: decimal digits left-padded
with zeros to width 3. -/
def pad3 (n : Nat) : String :=
  let s := Nat.repr n
  String.mk (List.replicate (3 - s.length) '0') ++ s

/-- Python slice `s[:n]` (first `n` characters, or all of them when the
string is shorter). -/
def takeStr (s : String) (n : Nat) : String :=
  String.mk (s.data.take n)

/-- Line 376: `doc_path.replace('_markdown.md', '').replace('output/extraction_results/', '')`. -/
def sourceFileOf (doc_path : String) : String :=
  String.mk (replaceS "output/extraction_results/".data []
    (replaceS "_markdown.md".data [] doc_path.data))

/-- Lines 406-412: `section_title` is the value of the first of
`Header 2, Header 3, Header 1, Header 4` present in a non-empty hierarchy
(presence, not truthiness, decides). -/
def sectionTitleOf (h : List (String × String)) : Option String :=
  if h.isEmpty then none
  else
    match lookupMeta h "Header 2" with
    | some v => some v
    | none =>
      match lookupMeta h "Header 3" with
      | some v => some v
      | none =>
        match lookupMeta h "Header 1" with
        | some v => some v
        | none => lookupMeta h "Header 4"

/-- Lines 402-433: build the final chunk record for a surviving pre-chunk at
position `idx`; `total_chunks` is stamped afterwards. -/
def mkChunk (tc : String → Nat) (source_file doc_path content_hash : String)
    (pc : PreChunk) (idx : Nat) : Chunk :=
  let ctx := buildContextHeader source_file pc.metadata pc.location
  let enriched := ctx ++ pc.content
  { chunk_id := takeStr content_hash 8 ++ "_chunk_" ++ pad3 idx
    content := pc.content
    enriched_content := enriched
    source_file := source_file
    source_path := doc_path
    location := pc.location
    chunk_index := idx
    total_chunks := 0
    token_count := pc.token_count
    enriched_token_count := tc enriched
    document_hash := content_hash
    section_title := sectionTitleOf pc.metadata
    section_hierarchy := pc.metadata }

/-- The assembly loop of lines 394-434: drop pre-chunks under 200 tokens,
number the survivors consecutively from `ctr`. -/
def assembleAux (tc : String → Nat) (source_file doc_path content_hash : String) :
    List PreChunk → Nat → List Chunk
  | [], _ => []
  | pc :: rest, ctr =>
    if pc.token_count < 200 then assembleAux tc source_file doc_path content_hash rest ctr
    else mkChunk tc source_file doc_path content_hash pc ctr ::
      assembleAux tc source_file doc_path content_hash rest (ctr + 1)

/-- Steps 1-2 of `chunk_document` (lines 378-391): segment the document and
chunk every section with its location.  `chunk_section_content` is called
without `min_chunk_size`, so the default of 400 applies (line 243). -/
def preChunksOf (tc : String → Nat) (mdSplit : String → Except Unit (List MDoc))
    (tsplit : String → List String) (doc_path content : String) (target : Nat) : List PreChunk :=
  (splitByDocumentSections content (sourceFileOf doc_path)).flatMap (fun sec =>
    chunkSectionContent tc mdSplit tsplit sec.2 sec.1 target 400)

/-- Embeds `chunk_document` (lines 361-440): segment, chunk, filter, number, and
stamp every chunk with the final count. -/
def chunkDocument (tc : String → Nat) (mdSplit : String → Except Unit (List MDoc))
    (tsplit : String → List String) (doc_path content content_hash : String)
    (target : Nat) : List Chunk :=
  let source_file := sourceFileOf doc_path
  let pcs := preChunksOf tc mdSplit tsplit doc_path content target
  let fc := assembleAux tc source_file doc_path content_hash pcs 0
  fc.map (fun c => { c with total_chunks := fc.length })

/-!
The size-bounded splitter.  The source delegates this stage to langchain's
`RecursiveCharacterTextSplitter` (lines 321-333), a third-party library
that is not part of this repository, so the stage is modelled from the
specification.
-/

/-- Modelled from the spec: the separator priority of §4.4 / lines 325-331 —
paragraph breaks, newlines not followed by a table-row character (`|` or
`-`), sentence-ending periods, single spaces, and individual characters as
last resort. -/
inductive SepKind where
  | para
  | lineNT
  | sentence
  | space
  | chr
deriving DecidableEq, Repr

/-- Cut a character list into pieces, starting a new piece at every interior
position where `p` holds of the remaining suffix; the concatenation of the
pieces is the original list. -/
def splitAtP (p : List Char → Bool) : List Char → List (List Char)
  | [] => []
  | c :: cs =>
    match splitAtP p cs with
    | [] => [[c]]
    | piece :: rest => if p cs then [c] :: piece :: rest else (c :: piece) :: rest

/-- Modelled from the spec: the split points of each separator of §4.4.  A
paragraph separator cuts where `"\n\n"` follows; the table-safe newline cuts
at a `'\n'` not followed by `'|'` or `'-'`; a sentence separator cuts where
`". "` ends; a space separator cuts at `' '`; the character separator cuts
everywhere. -/
def sepCut : SepKind → List Char → Bool
  | .para, l => isPrefixL "\n\n".data l
  | .lineNT, l =>
    match l with
    | '\n' :: rest =>
      match rest with
      | [] => true
      | c :: _ => !(c = '|' || c = '-')
    | _ => false
  | .sentence, l => isPrefixL ". ".data l
  | .space, l =>
    match l with
    | ' ' :: _ => true
    | _ => false
  | .chr, l => !l.isEmpty

/-- Modelled from the spec: recursive size-bounded splitting (§4.4).  A
fragment within the token budget passes through unchanged; otherwise the
next separator of the priority list cuts it and each piece is split further
with the remaining separators; a fragment that no separator remains for is
an indivisible atomic unit and is emitted as is. -/
def recSplit (tc : List Char → Nat) (target : Nat) : List SepKind → List Char → List (List Char)
  | [], s => if tc s ≤ target then [s] else [s]
  | k :: rest, s =>
    if tc s ≤ target then [s]
    else (splitAtP (sepCut k) s).flatMap (recSplit tc target rest)

/-- Modelled from the spec: the full separator priority list of §4.4, ending
in the character-level separator. -/
def specSeps : List SepKind :=
  [.para, .lineNT, .sentence, .space, .chr]

/-- Modelled from the spec: the `RecursiveCharacterTextSplitter.split_text`
entry point used by `chunk_section_content`, instantiated with the token
counter and the target size that lines 321-333 bake into the splitter. -/
def specSplit (tc : String → Nat) (target : Nat) (s : String) : List String :=
  (recSplit (fun l => tc (String.mk l)) target specSeps s.data).map String.mk

/-!
Lemmas about the assembly loop (lines 394-440).
-/

theorem assembleAux_length (tc : String → Nat) (sf dp h : String) (l : List PreChunk) (ctr : Nat) :
    (assembleAux tc sf dp h l ctr).length
      = (l.filter (fun pc => decide (200 ≤ pc.token_count))).length := by
  induction l generalizing ctr with
  | nil => rfl
  | cons pc rest ih =>
    by_cases hpc : pc.token_count < 200
    · have h2 : ¬ 200 ≤ pc.token_count := by omega
      simp [assembleAux, hpc, h2, ih]
    · have h2 : 200 ≤ pc.token_count := by omega
      simp [assembleAux, hpc, h2, ih]

theorem assembleAux_chunk_index (tc : String → Nat) (sf dp h : String) (l : List PreChunk)
    (ctr i : Nat) (ch : Chunk) (hch : (assembleAux tc sf dp h l ctr).get? i = some ch) :
    ch.chunk_index = ctr + i := by
  induction l generalizing ctr i with
  | nil => simp [assembleAux] at hch
  | cons pc rest ih =>
    by_cases hpc : pc.token_count < 200
    · rw [show assembleAux tc sf dp h (pc :: rest) ctr = assembleAux tc sf dp h rest ctr by
        simp [assembleAux, hpc]] at hch
      exact ih ctr i hch
    · rw [show assembleAux tc sf dp h (pc :: rest) ctr
          = mkChunk tc sf dp h pc ctr :: assembleAux tc sf dp h rest (ctr + 1) by
        simp [assembleAux, hpc]] at hch
      match i with
      | 0 =>
        have : mkChunk tc sf dp h pc ctr = ch := by simpa using hch
        rw [← this]; rfl
      | i + 1 =>
        have hch2 : (assembleAux tc sf dp h rest (ctr + 1)).get? i = some ch := by
          simpa using hch
        have := ih (ctr + 1) i hch2
        omega

theorem assembleAux_token_floor (tc : String → Nat) (sf dp h : String) (l : List PreChunk)
    (ctr : Nat) : ∀ ch ∈ assembleAux tc sf dp h l ctr, 200 ≤ ch.token_count := by
  induction l generalizing ctr with
  | nil => intro ch hch; simp [assembleAux] at hch
  | cons pc rest ih =>
    intro ch hch
    by_cases hpc : pc.token_count < 200
    · rw [show assembleAux tc sf dp h (pc :: rest) ctr = assembleAux tc sf dp h rest ctr by
        simp [assembleAux, hpc]] at hch
      exact ih ctr ch hch
    · rw [show assembleAux tc sf dp h (pc :: rest) ctr
          = mkChunk tc sf dp h pc ctr :: assembleAux tc sf dp h rest (ctr + 1) by
        simp [assembleAux, hpc]] at hch
      rcases List.mem_cons.mp hch with hc | hc
      · subst hc; simpa [mkChunk] using by omega
      · exact ih (ctr + 1) ch hc

theorem assembleAux_chunk_id (tc : String → Nat) (sf dp h : String) (l : List PreChunk)
    (ctr : Nat) : ∀ ch ∈ assembleAux tc sf dp h l ctr,
      ch.chunk_id = takeStr h 8 ++ "_chunk_" ++ pad3 ch.chunk_index := by
  induction l generalizing ctr with
  | nil => intro ch hch; simp [assembleAux] at hch
  | cons pc rest ih =>
    intro ch hch
    by_cases hpc : pc.token_count < 200
    · rw [show assembleAux tc sf dp h (pc :: rest) ctr = assembleAux tc sf dp h rest ctr by
        simp [assembleAux, hpc]] at hch
      exact ih ctr ch hch
    · rw [show assembleAux tc sf dp h (pc :: rest) ctr
          = mkChunk tc sf dp h pc ctr :: assembleAux tc sf dp h rest (ctr + 1) by
        simp [assembleAux, hpc]] at hch
      rcases List.mem_cons.mp hch with hc | hc
      · subst hc; rfl
      · exact ih (ctr + 1) ch hc

/-!
Lemmas about the spec-modelled recursive splitter.
-/

theorem splitAtP_join (p : List Char → Bool) (l : List Char) : (splitAtP p l).join = l := by
  induction l with
  | nil => rfl
  | cons c cs ih =>
    simp only [splitAtP]
    cases h : splitAtP p cs with
    | nil =>
      have hcs : cs = [] := by
        rw [h] at ih
        simpa using ih.symm
      simp [hcs]
    | cons piece rest =>
      rw [h] at ih
      by_cases hp : p cs
      · simpa [hp] using ih
      · simpa [hp] using ih

theorem splitAtP_piece_length (p : List Char → Bool) (l : List Char) :
    ∀ u ∈ splitAtP p l, u.length ≤ l.length := by
  intro u hu
  have hmem : u.length ∈ (splitAtP p l).map List.length := List.mem_map_of_mem _ hu
  calc u.length ≤ ((splitAtP p l).map List.length).sum :=
        List.single_le_sum (fun x _ => Nat.zero_le x) _ hmem
    _ = (splitAtP p l).join.length := (List.length_join _).symm
    _ = l.length := by rw [splitAtP_join]

theorem recSplit_piece_length (tc : List Char → Nat) (target : Nat) (seps : List SepKind) :
    ∀ s u, u ∈ recSplit tc target seps s → u.length ≤ s.length := by
  induction seps with
  | nil =>
    intro s u hu
    have : u = s := by
      by_cases h : tc s ≤ target <;> simpa [recSplit, h] using hu
    exact this ▸ Nat.le_refl _
  | cons k rest ih =>
    intro s u hu
    by_cases h : tc s ≤ target
    · have : u = s := by simpa [recSplit, h] using hu
      exact this ▸ Nat.le_refl _
    · rw [show recSplit tc target (k :: rest) s
          = (splitAtP (sepCut k) s).flatMap (recSplit tc target rest) by
        simp [recSplit, h]] at hu
      rcases List.mem_flatMap.mp hu with ⟨piece, hp, hup⟩
      exact Nat.le_trans (ih piece u hup) (splitAtP_piece_length _ s piece hp)

theorem splitAtP_chr_singleton (l : List Char) :
    ∀ u ∈ splitAtP (sepCut SepKind.chr) l, u.length ≤ 1 := by
  induction l with
  | nil => simp [splitAtP]
  | cons c cs ih =>
    intro u hu
    simp only [splitAtP] at hu
    split at hu
    · have : u = [c] := by simpa using hu
      simp [this]
    · rename_i piece rest h
      by_cases hp : sepCut SepKind.chr cs
      · rw [if_pos hp] at hu
        rcases List.mem_cons.mp hu with h1 | h1
        · simp [h1]
        · exact ih u (by rw [h]; exact h1)
      · have hcs : cs = [] := by
          by_contra hne
          cases cs with
          | nil => exact hne rfl
          | cons x xs => exact hp (by simp [sepCut])
        rw [hcs] at h
        simp [splitAtP] at h

theorem recSplit_bound (tc : List Char → Nat) (target : Nat) (seps : List SepKind)
    (hchr : SepKind.chr ∈ seps) :
    ∀ s u, u ∈ recSplit tc target seps s → tc u ≤ target ∨ u.length ≤ 1 := by
  induction seps with
  | nil => exact absurd hchr (List.not_mem_nil _)
  | cons k rest ih =>
    intro s u hu
    by_cases h : tc s ≤ target
    · have : u = s := by simpa [recSplit, h] using hu
      exact Or.inl (this ▸ h)
    · rw [show recSplit tc target (k :: rest) s
          = (splitAtP (sepCut k) s).flatMap (recSplit tc target rest) by
        simp [recSplit, h]] at hu
      rcases List.mem_flatMap.mp hu with ⟨piece, hp, hup⟩
      by_cases hr : SepKind.chr ∈ rest
      · exact ih hr piece u hup
      · have hk : k = SepKind.chr := by
          rcases List.mem_cons.mp hchr with h1 | h1
          · exact h1.symm
          · exact absurd h1 hr
        subst hk
        exact Or.inr (Nat.le_trans (recSplit_piece_length tc target rest piece u hup)
          (splitAtP_chr_singleton s piece hp))

theorem specSplit_bound (tc : String → Nat) (target : Nat) :
    ∀ s u, u ∈ specSplit tc target s → tc u ≤ target ∨ u.length ≤ 1 := by
  intro s u hu
  rcases List.mem_map.mp hu with ⟨piece, hp, hup⟩
  subst hup
  have := recSplit_bound (fun l => tc (String.mk l)) target specSeps (by decide) s.data piece hp
  simpa [String.length] using this

theorem emitChunks_bound (tc : String → Nat) (tsplit : String → List String) (target : Nat)
    (loc : String) (secs : List MDoc)
    (hts : ∀ s u, u ∈ tsplit s → tc u ≤ target ∨ u.length ≤ 1) :
    ∀ pc ∈ emitChunks tc tsplit target loc secs,
      pc.token_count ≤ target ∨ pc.content.length ≤ 1 := by
  intro pc hpc
  rcases List.mem_flatMap.mp hpc with ⟨sec, hsec, hbody⟩
  dsimp only at hbody
  by_cases h : tc sec.page_content ≤ target
  · rw [if_pos h] at hbody
    have : pc = ⟨sec.page_content, tc sec.page_content, sec.metadata, loc⟩ := by
      simpa using hbody
    exact Or.inl (by rw [this]; exact h)
  · rw [if_neg h] at hbody
    rcases List.mem_map.mp hbody with ⟨sub, hsub, hpcsub⟩
    rcases hts sec.page_content sub hsub with hb | hb
    · exact Or.inl (by rw [← hpcsub]; exact hb)
    · exact Or.inr (by rw [← hpcsub]; exact hb)

/-!
Lemmas about the structural segmenter.
-/

theorem splitAtMarkers_partition (f : List Char → Option (List Char)) (lines : List (List Char)) :
    lines = (splitAtMarkers f lines).1
        ++ (splitAtMarkers f lines).2.flatMap (fun g => g.1 :: g.2.2)
    ∧ (∀ x ∈ (splitAtMarkers f lines).1, f x = none)
    ∧ (∀ g ∈ (splitAtMarkers f lines).2, f g.1 = some g.2.1 ∧ ∀ x ∈ g.2.2, f x = none) := by
  induction lines with
  | nil => exact ⟨rfl, by simp [splitAtMarkers], by simp [splitAtMarkers]⟩
  | cons l ls ih =>
    obtain ⟨ih1, ih2, ih3⟩ := ih
    cases hf : f l with
    | some lab =>
      have he : splitAtMarkers f (l :: ls)
          = ([], (l, lab, (splitAtMarkers f ls).1) :: (splitAtMarkers f ls).2) := by
        simp [splitAtMarkers, hf]
      rw [he]
      refine ⟨?_, by simp, ?_⟩
      · simpa using congrArg (l :: ·) ih1
      · intro g hg
        rcases List.mem_cons.mp hg with h1 | h1
        · subst h1
          exact ⟨hf, ih2⟩
        · exact ih3 g h1
    | none =>
      have he : splitAtMarkers f (l :: ls)
          = (l :: (splitAtMarkers f ls).1, (splitAtMarkers f ls).2) := by
        simp [splitAtMarkers, hf]
      rw [he]
      refine ⟨by simpa using congrArg (l :: ·) ih1, ?_, ih3⟩
      intro x hx
      rcases List.mem_cons.mp hx with h1 | h1
      · subst h1; exact hf
      · exact ih2 x h1

theorem isPrefixL_append_drop (p : List Char) :
    ∀ l, isPrefixL p l = true → p ++ l.drop p.length = l := by
  induction p with
  | nil => intro l _; rfl
  | cons a p ih =>
    intro l hp
    cases l with
    | nil => simp [isPrefixL] at hp
    | cons c cs =>
      simp only [isPrefixL, Bool.and_eq_true, decide_eq_true_eq] at hp
      obtain ⟨hac, hps⟩ := hp
      subst hac
      simpa using ih cs hps

theorem splitOnStrAux_ne_nil (pat : List Char) (fuel : Nat) (l : List Char) :
    splitOnStrAux pat fuel l ≠ [] := by
  match fuel, l with
  | _, [] => simp [splitOnStrAux]
  | 0, c :: cs => simp [splitOnStrAux]
  | fuel + 1, c :: cs =>
    by_cases hp : isPrefixL pat (c :: cs)
    · simp [splitOnStrAux, hp]
    · rw [show splitOnStrAux pat (fuel + 1) (c :: cs)
          = (match splitOnStrAux pat fuel cs with
             | [] => [[c]]
             | l :: ls => (c :: l) :: ls) by simp [splitOnStrAux, hp]]
      cases splitOnStrAux pat fuel cs <;> simp

theorem joinSepL_cons_of_ne (sep : List Char) (x : List Char) (ys : List (List Char))
    (h : ys ≠ []) : joinSepL sep (x :: ys) = x ++ sep ++ joinSepL sep ys := by
  cases ys with
  | nil => exact absurd rfl h
  | cons y ys => simp [joinSepL]

theorem joinSepL_cons_char (sep : List Char) (c : Char) (p : List Char) (ps : List (List Char)) :
    joinSepL sep ((c :: p) :: ps) = c :: joinSepL sep (p :: ps) := by
  cases ps <;> simp [joinSepL]

theorem joinSepL_splitOnStrAux (pat : List Char) (hpat : pat ≠ []) :
    ∀ fuel l, l.length ≤ fuel → joinSepL pat (splitOnStrAux pat fuel l) = l := by
  intro fuel
  induction fuel with
  | zero =>
    intro l hl
    have : l = [] := List.length_eq_zero.mp (Nat.le_zero.mp hl)
    subst this
    rfl
  | succ fuel ih =>
    intro l hl
    cases l with
    | nil => rfl
    | cons c cs =>
      by_cases hp : isPrefixL pat (c :: cs)
      · rw [show splitOnStrAux pat (fuel + 1) (c :: cs)
            = [] :: splitOnStrAux pat fuel ((c :: cs).drop pat.length) by
          simp [splitOnStrAux, hp]]
        rw [joinSepL_cons_of_ne pat [] _ (splitOnStrAux_ne_nil pat fuel _)]
        have hplen : 1 ≤ pat.length := by
          cases pat with
          | nil => exact absurd rfl hpat
          | cons a as => simp
        have hdlen : ((c :: cs).drop pat.length).length ≤ fuel := by
          rw [List.length_drop]
          simp only [List.length_cons] at hl ⊢
          omega
        rw [ih ((c :: cs).drop pat.length) hdlen]
        simpa using isPrefixL_append_drop pat (c :: cs) hp
      · rw [show splitOnStrAux pat (fuel + 1) (c :: cs)
            = (match splitOnStrAux pat fuel cs with
               | [] => [[c]]
               | l :: ls => (c :: l) :: ls) by simp [splitOnStrAux, hp]]
        cases hr : splitOnStrAux pat fuel cs with
        | nil => exact absurd hr (splitOnStrAux_ne_nil pat fuel cs)
        | cons p ps =>
          rw [joinSepL_cons_char]
          rw [← hr, ih cs (by simpa using hl)]

theorem joinSepL_splitOnStr (pat : List Char) (hpat : pat ≠ []) (l : List Char) :
    joinSepL pat (splitOnStr pat l) = l :=
  joinSepL_splitOnStrAux pat hpat l.length l (Nat.le_refl _)

/-- C6 counterexample: the claim that no body text outside markers is lost
is false — body text before the first marker is dropped.  In the document
`"orphan\n## Alpha\nbody"` the word `orphan` is body text (not a marker
line, not a page annotation, not a horizontal rule), yet the only emitted
section is `("Alpha", "body")` and no section contains `orphan`. -/
theorem c6_coverage_counterexample :
    splitByDocumentSections "orphan\n## Alpha\nbody" "notes.txt" = [("Alpha", "body")]
    ∧ containsStr "orphan".data "orphan\n## Alpha\nbody".data = true
    ∧ ∀ sec ∈ splitByDocumentSections "orphan\n## Alpha\nbody" "notes.txt",
        containsStr "orphan".data sec.2.data = false :=
  ⟨by decide, by decide, by decide⟩

/-- C6 amended: sections produced by `split_by_document_sections` never
overlap, and for the marker-based paths the lines of the document decompose
exactly into the lines before the first marker, then for each section its
marker line followed by its raw block of lines; each emitted section is such
a block rejoined, whitespace- and horizontal-rule-stripped, empties dropped —
so no body text after the first marker is lost, while text before the first
marker is dropped.  For the page-break path, the page-break-delimited blocks
concatenate back to the whole body before per-page stripping.  (The theorem
assumes no line is a `markerEdge` line, where the line-local marker model
coincides with the multiline regexes.) -/
theorem c6_sections_partition (content source_file : String)
    (hnotdi : ¬(isPdfName (toLowerStr source_file)
        && containsStr pageBreakMarker content.data) = true)
    (hedge : ∀ L ∈ splitOnNl content.data, markerEdge source_file L = false) :
    (splitOnNl content.data
      = (splitAtMarkers (markerOf source_file) (splitOnNl content.data)).1
        ++ (splitAtMarkers (markerOf source_file) (splitOnNl content.data)).2.flatMap
            (fun g => g.1 :: g.2.2))
    ∧ (∀ x ∈ (splitAtMarkers (markerOf source_file) (splitOnNl content.data)).1,
        markerOf source_file x = none)
    ∧ (∀ g ∈ (splitAtMarkers (markerOf source_file) (splitOnNl content.data)).2,
        markerOf source_file g.1 = some g.2.1 ∧ ∀ x ∈ g.2.2, markerOf source_file x = none)
    ∧ ((splitAtMarkers (markerOf source_file) (splitOnNl content.data)).2 ≠ [] →
        splitByDocumentSections content source_file
          = (splitAtMarkers (markerOf source_file) (splitOnNl content.data)).2.filterMap
              (fun g =>
                let t := stripSection (joinNl g.2.2)
                if t.isEmpty then none else some (String.mk g.2.1, String.mk t)))
    ∧ joinSepL pageBreakMarker (splitOnStr pageBreakMarker content.data) = content.data := by
  obtain ⟨h1, h2, h3⟩ := splitAtMarkers_partition (markerOf source_file) (splitOnNl content.data)
  refine ⟨h1, h2, h3, ?_, joinSepL_splitOnStr pageBreakMarker (by decide) content.data⟩
  intro hgs
  have hne : ¬((splitAtMarkers (markerOf source_file) (splitOnNl content.data)).2.isEmpty
      = true) := by
    simpa [List.isEmpty_iff] using hgs
  simp only [splitByDocumentSections]
  rw [if_neg hnotdi, if_neg hne]

theorem isPrefixL_head (a b : Char) (as bs l : List Char)
    (ha : isPrefixL (a :: as) l = true) (hb : isPrefixL (b :: bs) l = true) : a = b := by
  cases l with
  | nil => simp [isPrefixL] at ha
  | cons c cs =>
    simp only [isPrefixL, Bool.and_eq_true, decide_eq_true_eq] at ha hb
    rw [ha.1, hb.1]

theorem suffix_head_ne (sl : String) (a b : Char) (as bs : List Char) (hab : a ≠ b)
    (ha : isPrefixL (a :: as) sl.data.reverse = true) :
    isPrefixL (b :: bs) sl.data.reverse = false := by
  cases hb : isPrefixL (b :: bs) sl.data.reverse
  · rfl
  · exact absurd (isPrefixL_head a b as bs _ ha hb) hab

/-- A filename ending in `.msg` ends in none of `.pdf`, `.xlsx`, `.xls`,
`.csv`, so the email branch of the type dispatch is the one selected. -/
theorem emailName_exclusive (sl : String) (h : isEmailName sl = true) :
    isPdfName sl = false ∧ isExcelName sl = false := by
  have hg : isPrefixL ('g' :: 's' :: 'm' :: '.' :: []) sl.data.reverse = true := h
  have hpdf : isPdfName sl
      = isPrefixL ('f' :: 'd' :: 'p' :: '.' :: []) sl.data.reverse := rfl
  have hxlsx : isPrefixL ('x' :: 's' :: 'l' :: 'x' :: '.' :: []) sl.data.reverse = false :=
    suffix_head_ne sl 'g' 'x' _ _ (by decide) hg
  have hxls : isPrefixL ('s' :: 'l' :: 'x' :: '.' :: []) sl.data.reverse = false :=
    suffix_head_ne sl 'g' 's' _ _ (by decide) hg
  have hcsv : isPrefixL ('v' :: 's' :: 'c' :: '.' :: []) sl.data.reverse = false :=
    suffix_head_ne sl 'g' 'v' _ _ (by decide) hg
  constructor
  · rw [hpdf]
    exact suffix_head_ne sl 'g' 'f' _ _ (by decide) hg
  · have hex : isExcelName sl
        = (isPrefixL ('x' :: 's' :: 'l' :: 'x' :: '.' :: []) sl.data.reverse
           || isPrefixL ('s' :: 'l' :: 'x' :: '.' :: []) sl.data.reverse
           || isPrefixL ('v' :: 's' :: 'c' :: '.' :: []) sl.data.reverse) := rfl
    rw [hex, hxlsx, hxls, hcsv]
    rfl

/-- C9 counterexample: for a `.msg` source, the line `"## Meeting Notes"`
matches `## <Capitalized two-word label>`, yet the segmenter does not split
on it — the whole document comes back as one default section, because the
email pattern only accepts labels beginning with the word `Email`. -/
theorem c9_email_counterexample :
    splitByDocumentSections "## Meeting Notes\nbody text here" "m.msg"
      = [("Section 1", "## Meeting Notes\nbody text here")]
    ∧ emailLabel "## Meeting Notes".data = none := by
  exact ⟨by decide, by decide⟩

/-- C9 amended: for message/email source files the segmenter splits exactly
on the lines matching `^##\s+(Email\s+\w+)\s*$` — `##`, whitespace, the word
`Email` (case-insensitive), whitespace, and one `\w+` word, with optional
trailing whitespace — not on every capitalized two-word label; each
resulting section's location is the matched label exactly as it appears on
its marker line.  (Assumes no `markerEdge` line, where the line-local model
coincides with the multiline regexes.) -/
theorem c9_email_sections (content source_file : String)
    (hmsg : isEmailName (toLowerStr source_file) = true)
    (hedge : ∀ L ∈ splitOnNl content.data, markerEdge source_file L = false)
    (hgs : (splitAtMarkers emailLabel (splitOnNl content.data)).2 ≠ []) :
    markerOf source_file = emailLabel
    ∧ splitByDocumentSections content source_file
        = (splitAtMarkers emailLabel (splitOnNl content.data)).2.filterMap
            (fun g =>
              let t := stripSection (joinNl g.2.2)
              if t.isEmpty then none else some (String.mk g.2.1, String.mk t))
    ∧ ∀ sec ∈ splitByDocumentSections content source_file,
        ∃ L ∈ splitOnNl content.data, emailLabel L = some sec.1.data := by
  obtain ⟨hpdf, hexcel⟩ := emailName_exclusive (toLowerStr source_file) hmsg
  have hmk : markerOf source_file = emailLabel := by
    simp [markerOf, hpdf, hexcel, hmsg]
  have hne : ¬((splitAtMarkers emailLabel (splitOnNl content.data)).2.isEmpty = true) := by
    simpa [List.isEmpty_iff] using hgs
  have hsplit : splitByDocumentSections content source_file
      = (splitAtMarkers emailLabel (splitOnNl content.data)).2.filterMap
          (fun g =>
            let t := stripSection (joinNl g.2.2)
            if t.isEmpty then none else some (String.mk g.2.1, String.mk t)) := by
    simp only [splitByDocumentSections, hmk, hpdf]
    rw [if_neg (by simp), if_neg hne]
  refine ⟨hmk, hsplit, ?_⟩
  intro sec hsec
  rw [hsplit] at hsec
  rcases List.mem_filterMap.mp hsec with ⟨g, hg, hsome⟩
  obtain ⟨h1, _, h3⟩ := splitAtMarkers_partition emailLabel (splitOnNl content.data)
  refine ⟨g.1, ?_, ?_⟩
  · rw [h1]
    exact List.mem_append_right _ (List.mem_flatMap.mpr ⟨g, hg, List.mem_cons_self _ _⟩)
  · have hlab : emailLabel g.1 = some g.2.1 := (h3 g hg).1
    dsimp only at hsome
    by_cases h4 : (stripSection (joinNl g.2.2)).isEmpty = true
    · rw [if_pos h4] at hsome
      simp at hsome
    · rw [if_neg h4] at hsome
      have hpair := Option.some.inj hsome
      rw [hlab, ← hpair]

theorem assembleAux_enriched (tc : String → Nat) (sf dp h : String) (l : List PreChunk)
    (ctr : Nat) : ∀ ch ∈ assembleAux tc sf dp h l ctr,
      ch.enriched_content = buildContextHeader sf ch.section_hierarchy ch.location ++ ch.content := by
  induction l generalizing ctr with
  | nil => intro ch hch; simp [assembleAux] at hch
  | cons pc rest ih =>
    intro ch hch
    by_cases hpc : pc.token_count < 200
    · rw [show assembleAux tc sf dp h (pc :: rest) ctr = assembleAux tc sf dp h rest ctr by
        simp [assembleAux, hpc]] at hch
      exact ih ctr ch hch
    · rw [show assembleAux tc sf dp h (pc :: rest) ctr
          = mkChunk tc sf dp h pc ctr :: assembleAux tc sf dp h rest (ctr + 1) by
        simp [assembleAux, hpc]] at hch
      rcases List.mem_cons.mp hch with hc | hc
      · subst hc; rfl
      · exact ih (ctr + 1) ch hc

/-- C10 counterexample: the claim that the `Document:` line strips the file
extension is false — only the literals `.pdf`, `.xlsx`, `.msg` are removed,
so for an `.xls` (or `.csv`, `.txt`, …) source the extension survives in
the header. -/
theorem c10_extension_counterexample :
    buildContextHeader "data.xls" [] "" = "Document: data.xls\n\n"
    ∧ ¬ docNameOf "data.xls" = "data" :=
  ⟨by decide, by decide⟩

/-- C10 amended: the context header starts with `"Document: "` followed by
the source filename with underscores replaced by spaces and all occurrences
of the literals `.pdf`, `.xlsx` and `.msg` removed (other extensions are
kept); a `Section:` line is present exactly when some header level of the
hierarchy carries a non-empty cleaned title, joining those titles
most-general to most-specific with `" > "`; a `Location:` line is present
exactly when the location is non-empty; the header ends with a blank line
and every emitted chunk's `enriched_content` is this header followed by the
chunk's raw content. -/
theorem c10_context_header (source_file : String) (hier : List (String × String))
    (loc : String) (tc : String → Nat) (mdSplit : String → Except Unit (List MDoc))
    (tsplit : String → List String) (doc_path content content_hash : String) (target : Nat) :
    buildContextHeader source_file hier loc
      = "Document: " ++ docNameOf source_file
        ++ (if sectionPartsOf hier = [] then ""
            else "\n" ++ ("Section: " ++ joinSepS " > " (sectionPartsOf hier)))
        ++ (if loc = "" then "" else "\n" ++ ("Location: " ++ loc))
        ++ "\n\n"
    ∧ (∀ ch ∈ chunkDocument tc mdSplit tsplit doc_path content content_hash target,
        ch.enriched_content
          = buildContextHeader (sourceFileOf doc_path) ch.section_hierarchy ch.location
            ++ ch.content) := by
  constructor
  · by_cases hs : sectionPartsOf hier = []
    · by_cases hl : loc = ""
      · simp [buildContextHeader, hs, hl, joinSepS, String.append_assoc]
      · simp [buildContextHeader, hs, hl, joinSepS, String.append_assoc]
    · by_cases hl : loc = ""
      · simp [buildContextHeader, hs, hl, joinSepS, String.append_assoc]
      · simp [buildContextHeader, hs, hl, joinSepS, String.append_assoc]
  · intro ch hch
    rw [show chunkDocument tc mdSplit tsplit doc_path content content_hash target
        = (assembleAux tc (sourceFileOf doc_path) doc_path content_hash
            (preChunksOf tc mdSplit tsplit doc_path content target) 0).map
          (fun c => { c with total_chunks :=
            (assembleAux tc (sourceFileOf doc_path) doc_path content_hash
              (preChunksOf tc mdSplit tsplit doc_path content target) 0).length }) from rfl]
      at hch
    rcases List.mem_map.mp hch with ⟨c, hc, hfc⟩
    subst hfc
    simpa using assembleAux_enriched tc (sourceFileOf doc_path) doc_path content_hash
      (preChunksOf tc mdSplit tsplit doc_path content target) 0 c hc

theorem c6_sections_partition_witness :
    (splitOnNl (String.data "## A\nx")
      = (splitAtMarkers (markerOf "t.txt") (splitOnNl (String.data "## A\nx"))).1
        ++ (splitAtMarkers (markerOf "t.txt") (splitOnNl (String.data "## A\nx"))).2.flatMap
            (fun g => g.1 :: g.2.2))
    ∧ (∀ x ∈ (splitAtMarkers (markerOf "t.txt") (splitOnNl (String.data "## A\nx"))).1,
        markerOf "t.txt" x = none)
    ∧ (∀ g ∈ (splitAtMarkers (markerOf "t.txt") (splitOnNl (String.data "## A\nx"))).2,
        markerOf "t.txt" g.1 = some g.2.1 ∧ ∀ x ∈ g.2.2, markerOf "t.txt" x = none)
    ∧ ((splitAtMarkers (markerOf "t.txt") (splitOnNl (String.data "## A\nx"))).2 ≠ [] →
        splitByDocumentSections "## A\nx" "t.txt"
          = (splitAtMarkers (markerOf "t.txt") (splitOnNl (String.data "## A\nx"))).2.filterMap
              (fun g =>
                let t := stripSection (joinNl g.2.2)
                if t.isEmpty then none else some (String.mk g.2.1, String.mk t)))
    ∧ joinSepL pageBreakMarker (splitOnStr pageBreakMarker (String.data "## A\nx"))
        = String.data "## A\nx" :=
  c6_sections_partition "## A\nx" "t.txt" (by decide) (by decide)

theorem c9_email_sections_witness :
    markerOf "m.msg" = emailLabel
    ∧ splitByDocumentSections "## Email Body\nhi there" "m.msg"
        = (splitAtMarkers emailLabel (splitOnNl (String.data "## Email Body\nhi there"))).2.filterMap
            (fun g =>
              let t := stripSection (joinNl g.2.2)
              if t.isEmpty then none else some (String.mk g.2.1, String.mk t))
    ∧ ∀ sec ∈ splitByDocumentSections "## Email Body\nhi there" "m.msg",
        ∃ L ∈ splitOnNl (String.data "## Email Body\nhi there"),
          emailLabel L = some sec.1.data :=
  c9_email_sections "## Email Body\nhi there" "m.msg" (by decide) (by decide) (by decide)

theorem c10_context_header_witness :
    (buildContextHeader "my_report.pdf" [("Header 1", "Intro")] "Page 1"
      = "Document: " ++ docNameOf "my_report.pdf"
        ++ (if sectionPartsOf [("Header 1", "Intro")] = [] then ""
            else "\n" ++ ("Section: " ++ joinSepS " > " (sectionPartsOf [("Header 1", "Intro")])))
        ++ (if "Page 1" = "" then "" else "\n" ++ ("Location: " ++ "Page 1"))
        ++ "\n\n")
    ∧ (⟨"abcdefgh_chunk_000", "hello", "Document: d.txt\nLocation: Section 1\n\nhello",
        "d.txt", "d.txt", "Section 1", 0, 1, 500, 500, "abcdefgh", none, []⟩ : Chunk).enriched_content
      = buildContextHeader (sourceFileOf "d.txt")
          (⟨"abcdefgh_chunk_000", "hello", "Document: d.txt\nLocation: Section 1\n\nhello",
            "d.txt", "d.txt", "Section 1", 0, 1, 500, 500, "abcdefgh", none,
            []⟩ : Chunk).section_hierarchy
          (⟨"abcdefgh_chunk_000", "hello", "Document: d.txt\nLocation: Section 1\n\nhello",
            "d.txt", "d.txt", "Section 1", 0, 1, 500, 500, "abcdefgh", none, []⟩ : Chunk).location
        ++ (⟨"abcdefgh_chunk_000", "hello", "Document: d.txt\nLocation: Section 1\n\nhello",
            "d.txt", "d.txt", "Section 1", 0, 1, 500, 500, "abcdefgh", none, []⟩ : Chunk).content :=
  ⟨(c10_context_header "my_report.pdf" [("Header 1", "Intro")] "Page 1" (fun _ => 500)
      (fun s => Except.ok [⟨s, []⟩]) (fun s => [s]) "d.txt" "hello" "abcdefgh" 1000).1,
   (c10_context_header "my_report.pdf" [("Header 1", "Intro")] "Page 1" (fun _ => 500)
      (fun s => Except.ok [⟨s, []⟩]) (fun s => [s]) "d.txt" "hello" "abcdefgh" 1000).2
    ⟨"abcdefgh_chunk_000", "hello", "Document: d.txt\nLocation: Section 1\n\nhello",
      "d.txt", "d.txt", "Section 1", 0, 1, 500, 500, "abcdefgh", none, []⟩ (by decide)⟩

/-- C5: every chunk emitted by `chunk_section_content`, with the
spec-modelled size-bounded splitter instantiated at the same token counter
and target, has `token_count ≤ target` unless its content is a single
indivisible character that no separator of the priority list can reduce
further; and a merged fragment already within the budget passes through the
size-bounded splitter unchanged, as exactly one chunk. -/
theorem c5_token_budget (tc : String → Nat) (mdSplit : String → Except Unit (List MDoc))
    (sc loc : String) (target minSize : Nat) :
    (∀ pc ∈ chunkSectionContent tc mdSplit (specSplit tc target) sc loc target minSize,
      pc.token_count ≤ target ∨ pc.content.length ≤ 1)
    ∧ (∀ d ∈ mergeSections tc minSize (headerSplitsOf mdSplit (cleanSection sc)),
        tc d.page_content ≤ target →
        ¬(stripL (cleanSection sc).data).isEmpty = true →
        (⟨d.page_content, tc d.page_content, d.metadata, loc⟩ : PreChunk)
          ∈ chunkSectionContent tc mdSplit (specSplit tc target) sc loc target minSize) := by
  constructor
  · intro pc hpc
    unfold chunkSectionContent at hpc
    by_cases he : (stripL (cleanSection sc).data).isEmpty = true
    · rw [if_pos he] at hpc
      simp at hpc
    · rw [if_neg he] at hpc
      exact emitChunks_bound tc _ target loc _ (specSplit_bound tc target) pc hpc
  · intro d hd hle hne
    unfold chunkSectionContent
    rw [if_neg hne]
    refine List.mem_flatMap.mpr ⟨d, hd, ?_⟩
    dsimp only
    rw [if_pos hle]
    exact List.mem_singleton_self _

theorem c5_token_budget_witness :
    (⟨"hello", "hello".length, [], "Page 1"⟩ : PreChunk)
      ∈ chunkSectionContent (fun s => s.length) (fun s => Except.ok [⟨s, []⟩])
          (specSplit (fun s => s.length) 1000) "hello" "Page 1" 1000 400 :=
  (c5_token_budget (fun s => s.length) (fun s => Except.ok [⟨s, []⟩])
    "hello" "Page 1" 1000 400).2 ⟨"hello", []⟩ (by decide) (by decide) (by decide)

/-- C1: chunking is deterministic — two runs of `chunk_document` on the same
`(doc_path, content, content_hash)` with the same configuration (the same
token counter, header splitter, recursive splitter and target size) produce
byte-identical chunk lists: the same `chunk_id`s, the same `content` and
`enriched_content`, in the same order. -/
theorem c1_chunking_deterministic (tc : String → Nat)
    (mdSplit : String → Except Unit (List MDoc)) (tsplit : String → List String)
    (p₁ p₂ c₁ c₂ h₁ h₂ : String) (target : Nat)
    (hp : p₁ = p₂) (hc : c₁ = c₂) (hh : h₁ = h₂) :
    (chunkDocument tc mdSplit tsplit p₁ c₁ h₁ target).map Chunk.chunk_id
      = (chunkDocument tc mdSplit tsplit p₂ c₂ h₂ target).map Chunk.chunk_id
    ∧ (chunkDocument tc mdSplit tsplit p₁ c₁ h₁ target).map Chunk.content
      = (chunkDocument tc mdSplit tsplit p₂ c₂ h₂ target).map Chunk.content
    ∧ (chunkDocument tc mdSplit tsplit p₁ c₁ h₁ target).map Chunk.enriched_content
      = (chunkDocument tc mdSplit tsplit p₂ c₂ h₂ target).map Chunk.enriched_content
    ∧ chunkDocument tc mdSplit tsplit p₁ c₁ h₁ target
      = chunkDocument tc mdSplit tsplit p₂ c₂ h₂ target := by
  subst hp; subst hc; subst hh
  exact ⟨rfl, rfl, rfl, rfl⟩

theorem c1_chunking_deterministic_witness :
    (chunkDocument (fun s => s.length) (fun s => Except.ok [⟨s, []⟩]) (fun s => [s])
        "p.txt" "c" "h" 1000).map Chunk.chunk_id
      = (chunkDocument (fun s => s.length) (fun s => Except.ok [⟨s, []⟩]) (fun s => [s])
        "p.txt" "c" "h" 1000).map Chunk.chunk_id
    ∧ (chunkDocument (fun s => s.length) (fun s => Except.ok [⟨s, []⟩]) (fun s => [s])
        "p.txt" "c" "h" 1000).map Chunk.content
      = (chunkDocument (fun s => s.length) (fun s => Except.ok [⟨s, []⟩]) (fun s => [s])
        "p.txt" "c" "h" 1000).map Chunk.content
    ∧ (chunkDocument (fun s => s.length) (fun s => Except.ok [⟨s, []⟩]) (fun s => [s])
        "p.txt" "c" "h" 1000).map Chunk.enriched_content
      = (chunkDocument (fun s => s.length) (fun s => Except.ok [⟨s, []⟩]) (fun s => [s])
        "p.txt" "c" "h" 1000).map Chunk.enriched_content
    ∧ chunkDocument (fun s => s.length) (fun s => Except.ok [⟨s, []⟩]) (fun s => [s])
        "p.txt" "c" "h" 1000
      = chunkDocument (fun s => s.length) (fun s => Except.ok [⟨s, []⟩]) (fun s => [s])
        "p.txt" "c" "h" 1000 :=
  c1_chunking_deterministic (fun s => s.length) (fun s => Except.ok [⟨s, []⟩]) (fun s => [s])
    "p.txt" "p.txt" "c" "c" "h" "h" 1000 rfl rfl rfl

/-- C2: for every document, the emitted chunks are numbered exactly
`0, 1, 2, …` in output order with no gaps or repeats, and every chunk
carries the same `total_chunks`, equal to the number of chunks finally
emitted after the 200-token minimum filter. -/
theorem c2_chunk_index_contiguity (tc : String → Nat)
    (mdSplit : String → Except Unit (List MDoc)) (tsplit : String → List String)
    (doc_path content content_hash : String) (target : Nat) (i : Nat) (ch : Chunk)
    (hch : (chunkDocument tc mdSplit tsplit doc_path content content_hash target).get? i
      = some ch) :
    ch.chunk_index = i
    ∧ ch.total_chunks
      = (chunkDocument tc mdSplit tsplit doc_path content content_hash target).length := by
  rw [show chunkDocument tc mdSplit tsplit doc_path content content_hash target
      = (assembleAux tc (sourceFileOf doc_path) doc_path content_hash
          (preChunksOf tc mdSplit tsplit doc_path content target) 0).map
        (fun c => { c with total_chunks :=
          (assembleAux tc (sourceFileOf doc_path) doc_path content_hash
            (preChunksOf tc mdSplit tsplit doc_path content target) 0).length }) from rfl]
    at hch ⊢
  rw [List.get?_map] at hch
  rcases Option.map_eq_some'.mp hch with ⟨c, hc, hfc⟩
  subst hfc
  refine ⟨?_, ?_⟩
  · simpa using assembleAux_chunk_index tc (sourceFileOf doc_path) doc_path content_hash
      (preChunksOf tc mdSplit tsplit doc_path content target) 0 i c hc
  · simp

theorem c2_chunk_index_contiguity_witness :
    (⟨"abcdefgh_chunk_000", "hello", "Document: d.txt\nLocation: Section 1\n\nhello",
        "d.txt", "d.txt", "Section 1", 0, 1, 500, 500, "abcdefgh", none, []⟩ : Chunk).chunk_index
      = 0
    ∧ (⟨"abcdefgh_chunk_000", "hello", "Document: d.txt\nLocation: Section 1\n\nhello",
        "d.txt", "d.txt", "Section 1", 0, 1, 500, 500, "abcdefgh", none, []⟩ : Chunk).total_chunks
      = (chunkDocument (fun _ => 500) (fun s => Except.ok [⟨s, []⟩]) (fun s => [s])
          "d.txt" "hello" "abcdefgh" 1000).length :=
  c2_chunk_index_contiguity (fun _ => 500) (fun s => Except.ok [⟨s, []⟩]) (fun s => [s])
    "d.txt" "hello" "abcdefgh" 1000 0
    ⟨"abcdefgh_chunk_000", "hello", "Document: d.txt\nLocation: Section 1\n\nhello",
      "d.txt", "d.txt", "Section 1", 0, 1, 500, 500, "abcdefgh", none, []⟩ (by decide)

/-- C3: every emitted chunk's `chunk_id` is the first 8 characters of the
document content hash, then `"_chunk_"`, then the chunk index zero-padded to
3 digits — a pure function of `(content_hash, chunk_index)`. -/
theorem c3_chunk_id_formula (tc : String → Nat)
    (mdSplit : String → Except Unit (List MDoc)) (tsplit : String → List String)
    (doc_path content content_hash : String) (target : Nat) :
    ∀ ch ∈ chunkDocument tc mdSplit tsplit doc_path content content_hash target,
      ch.chunk_id = takeStr content_hash 8 ++ "_chunk_" ++ pad3 ch.chunk_index := by
  intro ch hch
  rw [show chunkDocument tc mdSplit tsplit doc_path content content_hash target
      = (assembleAux tc (sourceFileOf doc_path) doc_path content_hash
          (preChunksOf tc mdSplit tsplit doc_path content target) 0).map
        (fun c => { c with total_chunks :=
          (assembleAux tc (sourceFileOf doc_path) doc_path content_hash
            (preChunksOf tc mdSplit tsplit doc_path content target) 0).length }) from rfl]
    at hch
  rcases List.mem_map.mp hch with ⟨c, hc, hfc⟩
  subst hfc
  simpa using assembleAux_chunk_id tc (sourceFileOf doc_path) doc_path content_hash
    (preChunksOf tc mdSplit tsplit doc_path content target) 0 c hc

theorem c3_chunk_id_formula_witness :
    (⟨"abcdefgh_chunk_000", "hello", "Document: d.txt\nLocation: Section 1\n\nhello",
        "d.txt", "d.txt", "Section 1", 0, 1, 500, 500, "abcdefgh", none, []⟩ : Chunk).chunk_id
      = takeStr "abcdefgh" 8 ++ "_chunk_"
        ++ pad3 (⟨"abcdefgh_chunk_000", "hello",
            "Document: d.txt\nLocation: Section 1\n\nhello", "d.txt", "d.txt", "Section 1",
            0, 1, 500, 500, "abcdefgh", none, []⟩ : Chunk).chunk_index :=
  c3_chunk_id_formula (fun _ => 500) (fun s => Except.ok [⟨s, []⟩]) (fun s => [s])
    "d.txt" "hello" "abcdefgh" 1000
    ⟨"abcdefgh_chunk_000", "hello", "Document: d.txt\nLocation: Section 1\n\nhello",
      "d.txt", "d.txt", "Section 1", 0, 1, 500, 500, "abcdefgh", none, []⟩ (by decide)

/-- C4: every chunk emitted by `chunk_document` has `token_count ≥ 200`, and
a pre-chunk under 200 tokens contributes neither a chunk nor to the final
count (the emitted list is exactly as long as the list of pre-chunks with at
least 200 tokens). -/
theorem c4_min_token_floor (tc : String → Nat)
    (mdSplit : String → Except Unit (List MDoc)) (tsplit : String → List String)
    (doc_path content content_hash : String) (target : Nat) :
    (∀ ch ∈ chunkDocument tc mdSplit tsplit doc_path content content_hash target,
      200 ≤ ch.token_count)
    ∧ (chunkDocument tc mdSplit tsplit doc_path content content_hash target).length
      = ((preChunksOf tc mdSplit tsplit doc_path content target).filter
          (fun pc => decide (200 ≤ pc.token_count))).length := by
  constructor
  · intro ch hch
    rw [show chunkDocument tc mdSplit tsplit doc_path content content_hash target
        = (assembleAux tc (sourceFileOf doc_path) doc_path content_hash
            (preChunksOf tc mdSplit tsplit doc_path content target) 0).map
          (fun c => { c with total_chunks :=
            (assembleAux tc (sourceFileOf doc_path) doc_path content_hash
              (preChunksOf tc mdSplit tsplit doc_path content target) 0).length }) from rfl]
      at hch
    rcases List.mem_map.mp hch with ⟨c, hc, hfc⟩
    subst hfc
    simpa using assembleAux_token_floor tc (sourceFileOf doc_path) doc_path content_hash
      (preChunksOf tc mdSplit tsplit doc_path content target) 0 c hc
  · rw [show chunkDocument tc mdSplit tsplit doc_path content content_hash target
        = (assembleAux tc (sourceFileOf doc_path) doc_path content_hash
            (preChunksOf tc mdSplit tsplit doc_path content target) 0).map
          (fun c => { c with total_chunks :=
            (assembleAux tc (sourceFileOf doc_path) doc_path content_hash
              (preChunksOf tc mdSplit tsplit doc_path content target) 0).length }) from rfl,
      List.length_map]
    exact assembleAux_length tc (sourceFileOf doc_path) doc_path content_hash
      (preChunksOf tc mdSplit tsplit doc_path content target) 0

/-- C7: if the markdown header splitter fails on a section (for any reason),
the section is carried on as a single fragment with an empty heading path,
and the failure is not propagated: `chunk_section_content` behaves exactly
as if the splitter had returned that single fragment. -/
theorem c7_header_split_fallback (tc : String → Nat)
    (mdSplit : String → Except Unit (List MDoc)) (tsplit : String → List String)
    (sc loc : String) (target minSize : Nat)
    (hfail : mdSplit (cleanSection sc) = Except.error ()) :
    headerSplitsOf mdSplit (cleanSection sc) = [⟨cleanSection sc, []⟩]
    ∧ chunkSectionContent tc mdSplit tsplit sc loc target minSize
      = chunkSectionContent tc (fun s => Except.ok [⟨s, []⟩]) tsplit sc loc target minSize := by
  have h1 : headerSplitsOf mdSplit (cleanSection sc) = [⟨cleanSection sc, []⟩] := by
    simp [headerSplitsOf, hfail]
  exact ⟨h1, by simp [chunkSectionContent, headerSplitsOf, hfail]⟩

theorem c7_header_split_fallback_witness :
    headerSplitsOf (fun _ => Except.error ()) (cleanSection "some section") =
      [⟨cleanSection "some section", []⟩]
    ∧ chunkSectionContent (fun s => s.length) (fun _ => Except.error ()) (fun s => [s])
        "some section" "Page 1" 1000 400
      = chunkSectionContent (fun s => s.length) (fun s => Except.ok [⟨s, []⟩]) (fun s => [s])
        "some section" "Page 1" 1000 400 :=
  c7_header_split_fallback (fun s => s.length) (fun _ => Except.error ()) (fun s => [s])
    "some section" "Page 1" 1000 400 rfl

theorem lookupMeta_eq_none (m : List (String × String)) (k : String)
    (h : k ∉ m.map Prod.fst) : lookupMeta m k = none := by
  induction m with
  | nil => rfl
  | cons kv rest ih =>
    simp only [List.map_cons, List.mem_cons] at h
    push_neg at h
    have : kv.1 ≠ k := fun he => h.1 he.symm
    simpa [lookupMeta, this] using ih h.2

theorem lookupMeta_updateMeta (m : List (String × String)) (k2 v2 k : String) :
    lookupMeta (updateMeta m k2 v2) k
      = if k = k2 then
          (match lookupMeta m k2 with
           | none => some v2
           | some v => some (if v = v2 then v else v ++ " / " ++ v2))
        else lookupMeta m k := by
  induction m with
  | nil =>
    by_cases h : k = k2
    · subst h; simp [updateMeta, lookupMeta]
    · have : k2 ≠ k := fun he => h he.symm
      simp [updateMeta, lookupMeta, h, this]
  | cons kv rest ih =>
    obtain ⟨k1, v1⟩ := kv
    by_cases h1 : k1 = k2
    · subst h1
      by_cases h : k = k1
      · subst h; simp [updateMeta, lookupMeta]
      · have : k1 ≠ k := fun he => h he.symm
        simp [updateMeta, lookupMeta, h, this]
    · by_cases h : k = k1
      · subst h
        have hne : k ≠ k2 := fun he => h1 (by rw [← he])
        simp [updateMeta, lookupMeta, h1, hne]
      · have : k1 ≠ k := fun he => h he.symm
        simp [updateMeta, lookupMeta, h1, this, ih]

theorem lookupMeta_mergeMeta (m1 m2 : List (String × String)) (k : String)
    (hm2 : (m2.map Prod.fst).Nodup) :
    lookupMeta (mergeMeta m1 m2) k
      = (match lookupMeta m1 k, lookupMeta m2 k with
         | none, none => none
         | some v, none => some v
         | none, some w => some w
         | some v, some w => some (if v = w then v else v ++ " / " ++ w)) := by
  induction m2 generalizing m1 with
  | nil =>
    cases hl : lookupMeta m1 k <;> simp [mergeMeta, lookupMeta, hl]
  | cons kv m2' ih =>
    obtain ⟨k2, v2⟩ := kv
    have hnd : (m2'.map Prod.fst).Nodup := (List.nodup_cons.mp (by simpa using hm2)).2
    have hk2 : k2 ∉ m2'.map Prod.fst := (List.nodup_cons.mp (by simpa using hm2)).1
    have hstep : mergeMeta m1 ((k2, v2) :: m2') = mergeMeta (updateMeta m1 k2 v2) m2' := rfl
    rw [hstep, ih _ hnd]
    by_cases h : k = k2
    · subst h
      have h2' : lookupMeta m2' k = none := lookupMeta_eq_none m2' k hk2
      rw [lookupMeta_updateMeta, if_pos rfl, h2']
      cases hl : lookupMeta m1 k <;> simp [lookupMeta, hl]
    · have hne : k2 ≠ k := fun he => h he.symm
      rw [lookupMeta_updateMeta, if_neg h]
      simp [lookupMeta, hne]

/-- C8: the fragment merger walks left to right, absorbing the next fragment
while the running one is under `min_chunk_size` tokens, joining the texts
with a blank line; a heading key missing from the running fragment is copied
from the absorbed one, and a key present in both with different values
records both joined by `" / "`. -/
theorem c8_merge_small_fragments (tc : String → Nat) (minSize : Nat) (a b : MDoc)
    (rest : List MDoc) (m1 m2 : List (String × String)) (k : String)
    (hm2 : (m2.map Prod.fst).Nodup) :
    mergeSections tc minSize (a :: b :: rest)
      = (if tc a.page_content < minSize
         then mergeSections tc minSize (mergeDoc a b :: rest)
         else a :: mergeSections tc minSize (b :: rest))
    ∧ mergeDoc a b
      = ⟨a.page_content ++ "\n\n" ++ b.page_content, mergeMeta a.metadata b.metadata⟩
    ∧ lookupMeta (mergeMeta m1 m2) k
      = (match lookupMeta m1 k, lookupMeta m2 k with
         | none, none => none
         | some v, none => some v
         | none, some w => some w
         | some v, some w => some (if v = w then v else v ++ " / " ++ w)) := by
  refine ⟨?_, rfl, lookupMeta_mergeMeta m1 m2 k hm2⟩
  by_cases h : tc a.page_content < minSize <;> simp [mergeSections, mergeSmallAux, h]

theorem c8_merge_small_fragments_witness :
    mergeSections (fun s => s.length) 5 (⟨"ab", [("Header 1", "A")]⟩ :: ⟨"cdef", [("Header 1", "B"), ("Header 2", "C")]⟩ :: [])
      = (if (fun (s : String) => s.length) (MDoc.page_content ⟨"ab", [("Header 1", "A")]⟩) < 5
         then mergeSections (fun s => s.length) 5
           (mergeDoc ⟨"ab", [("Header 1", "A")]⟩ ⟨"cdef", [("Header 1", "B"), ("Header 2", "C")]⟩ :: [])
         else ⟨"ab", [("Header 1", "A")]⟩ ::
           mergeSections (fun s => s.length) 5 (⟨"cdef", [("Header 1", "B"), ("Header 2", "C")]⟩ :: []))
    ∧ mergeDoc ⟨"ab", [("Header 1", "A")]⟩ ⟨"cdef", [("Header 1", "B"), ("Header 2", "C")]⟩
      = ⟨MDoc.page_content ⟨"ab", [("Header 1", "A")]⟩ ++ "\n\n"
            ++ MDoc.page_content ⟨"cdef", [("Header 1", "B"), ("Header 2", "C")]⟩,
          mergeMeta (MDoc.metadata ⟨"ab", [("Header 1", "A")]⟩)
            (MDoc.metadata ⟨"cdef", [("Header 1", "B"), ("Header 2", "C")]⟩)⟩
    ∧ lookupMeta (mergeMeta [("Header 1", "A")] [("Header 1", "B"), ("Header 2", "C")]) "Header 1"
      = (match lookupMeta [("Header 1", "A")] "Header 1",
            lookupMeta [("Header 1", "B"), ("Header 2", "C")] "Header 1" with
         | none, none => none
         | some v, none => some v
         | none, some w => some w
         | some v, some w => some (if v = w then v else v ++ " / " ++ w)) :=
  c8_merge_small_fragments (fun s => s.length) 5 ⟨"ab", [("Header 1", "A")]⟩
    ⟨"cdef", [("Header 1", "B"), ("Header 2", "C")]⟩ [] [("Header 1", "A")]
    [("Header 1", "B"), ("Header 2", "C")] "Header 1" (by decide)

theorem c4_min_token_floor_witness :
    200 ≤ (⟨"abcdefgh_chunk_000", "hello", "Document: d.txt\nLocation: Section 1\n\nhello",
        "d.txt", "d.txt", "Section 1", 0, 1, 500, 500, "abcdefgh", none, []⟩ : Chunk).token_count :=
  (c4_min_token_floor (fun _ => 500) (fun s => Except.ok [⟨s, []⟩]) (fun s => [s])
    "d.txt" "hello" "abcdefgh" 1000).1
    ⟨"abcdefgh_chunk_000", "hello", "Document: d.txt\nLocation: Section 1\n\nhello",
      "d.txt", "d.txt", "Section 1", 0, 1, 500, 500, "abcdefgh", none, []⟩ (by decide)

end Prism
